import Mathlib

/-!
Verification of the L-system turtle graphics core.

Shallow embedding of `l_system.hpp`: the turtle state machine
(`TurtleBase`: position, orientation frame, brush width, state stack) and
the grammar interpreter (`LTurtle`: recursive `run` over a rule table with
a depth ceiling, and the `process` command dispatch).

Vectors are modelled component-wise over `ℝ`; the glm operations used by
the source (`normalize`, `cross`, `angleAxis`/`toMat3` rotation) are
embedded by their defining formulas.
-/

namespace LSys

/-- Component-wise 3-vector over `ℝ`, modelling `glm::vec3`. -/
@[ext]
structure Vec3 where
  x : ℝ
  y : ℝ
  z : ℝ

/-- Vector addition (`glm::vec3 operator+`). -/
def vadd (a b : Vec3) : Vec3 := ⟨a.x + b.x, a.y + b.y, a.z + b.z⟩

/-- Scalar multiplication (`float * glm::vec3`). -/
def smul (r : ℝ) (v : Vec3) : Vec3 := ⟨r * v.x, r * v.y, r * v.z⟩

/-- Dot product (`glm::dot`). -/
def dot (a b : Vec3) : ℝ := a.x * b.x + a.y * b.y + a.z * b.z

/-- Cross product (`glm::cross`). -/
def cross (a b : Vec3) : Vec3 :=
  ⟨a.y * b.z - a.z * b.y, a.z * b.x - a.x * b.z, a.x * b.y - a.y * b.x⟩

/-- Model of `glm::normalize`: divide by the Euclidean norm. -/
noncomputable def normalize (v : Vec3) : Vec3 :=
  smul (Real.sqrt (dot v v))⁻¹ v

/-- Application of the rotation matrix `glm::toMat3` of a quaternion
`(qw, qx, qy, qz)` to a vector, by glm's `mat3_cast` formula. -/
def quatRotate (qw qx qy qz : ℝ) (v : Vec3) : Vec3 :=
  ⟨(1 - 2 * (qy ^ 2 + qz ^ 2)) * v.x + 2 * (qx * qy - qw * qz) * v.y
      + 2 * (qx * qz + qw * qy) * v.z,
   2 * (qx * qy + qw * qz) * v.x + (1 - 2 * (qx ^ 2 + qz ^ 2)) * v.y
      + 2 * (qy * qz - qw * qx) * v.z,
   2 * (qx * qz - qw * qy) * v.x + 2 * (qy * qz + qw * qx) * v.y
      + (1 - 2 * (qx ^ 2 + qy ^ 2)) * v.z⟩

/-- Model of `glm::toMat3(glm::angleAxis(angle, axis)) * v`: the quaternion built by
`angleAxis` has scalar part `cos (angle/2)` and vector part
`sin (angle/2) • axis`. -/
noncomputable def rotVec (axis : Vec3) (angle : ℝ) (v : Vec3) : Vec3 :=
  quatRotate (Real.cos (angle / 2)) (Real.sin (angle / 2) * axis.x)
    (Real.sin (angle / 2) * axis.y) (Real.sin (angle / 2) * axis.z) v

/-- Model of `TurtleBase::TurtleState` with its member initializers. -/
@[ext]
structure TurtleState where
  position : Vec3
  forward : Vec3
  left : Vec3
  up : Vec3
  brushWidth : ℝ

/-- The default-constructed `TurtleState` (the in-class initializers). -/
def initState : TurtleState :=
  { position := ⟨0, 0, 0⟩
    forward := ⟨0, 1, 0⟩
    left := ⟨0, 0, 1⟩
    up := ⟨1, 0, 0⟩
    brushWidth := 1 }

/-- Model of `TurtleBase`: current state plus the state stack (list head = stack top). -/
@[ext]
structure Turtle where
  currentState : TurtleState
  turtleStack : List TurtleState

/-- A freshly constructed `TurtleBase`. -/
def initTurtle : Turtle := ⟨initState, []⟩

/-- Model of `TurtleBase::move`. -/
noncomputable def move (distance : ℝ) (t : Turtle) : Turtle :=
  let st := t.currentState
  let newPos := vadd st.position (smul distance (normalize st.forward))
  { t with currentState := { st with position := newPos } }

/-- Model of `TurtleBase::rotate`: rotate `forward` and `left`, re-derive `up` as
`newForward × newLeft`, re-derive `left` as `newUp × newForward`, then
normalize all three. -/
noncomputable def rotate (unit_axis : Vec3) (angle_radians : ℝ) (t : Turtle) : Turtle :=
  let newForward := rotVec unit_axis angle_radians t.currentState.forward
  let newLeft := rotVec unit_axis angle_radians t.currentState.left
  let newUp := cross newForward newLeft
  let newLeft2 := cross newUp newForward
  { t with currentState :=
      { t.currentState with
          forward := normalize newForward
          left := normalize newLeft2
          up := normalize newUp } }

/-- Model of `TurtleBase::set_brush_width`: assign only when the width is positive. -/
noncomputable def set_brush_width (width : ℝ) (t : Turtle) : Turtle :=
  if 0 < width then
    { t with currentState := { t.currentState with brushWidth := width } }
  else t

/-- Model of `TurtleBase::push`. -/
def push (t : Turtle) : Turtle :=
  { t with turtleStack := t.currentState :: t.turtleStack }

/-- Model of `TurtleBase::pop`: restore from the top snapshot if the stack is
non-empty, otherwise do nothing. -/
def pop (t : Turtle) : Turtle :=
  match t.turtleStack with
  | [] => t
  | lastState :: rest =>
      { currentState :=
          { position := lastState.position
            forward := lastState.forward
            left := lastState.left
            up := lastState.up
            brushWidth := lastState.brushWidth }
        turtleStack := rest }

/-- Modelled from the spec: the `Branch` record of `draw_primitives.hpp`
(not under `src/`): start point, start radius, end point, end radius, in
the argument order of the `Branch(...)` constructor call in
`LTurtle::process`. -/
@[ext]
structure Branch where
  startPoint : Vec3
  startRadius : ℝ
  endPoint : Vec3
  endRadius : ℝ

/-- Modelled from the spec: the `Leaf` record of `draw_primitives.hpp`
(not under `src/`): anchor point, orientation vectors (forward, left) and
a 2D size, in the argument order of the `Leaf(...)` constructor call in
`LTurtle::process`. -/
@[ext]
structure Leaf where
  pos : Vec3
  forward : Vec3
  left : Vec3
  size : ℝ × ℝ

/-- Model of `LTurtle::Config`. -/
structure Config where
  radius : ℝ
  distance : ℝ
  leaf_size : ℝ
  angle_world_y : ℝ
  angle_turtle_left : ℝ
  brush_decay_coef : ℝ
  max_depth : Nat

/-- Model of `LTurtle::Rules`: an association list modelling the
`unordered_map<char, string>` (keys unique); lookup is `List.lookup`. -/
def Rules := List (Char × List Char)

/-- The full observable state of one `LTurtle`: the underlying
`TurtleBase` plus the two caller-owned output collections. -/
@[ext]
structure LState where
  turtle : Turtle
  branches : List Branch
  leaves : List Leaf

/-- The initial `LState`: fresh turtle, empty output collections. -/
def initLState : LState := ⟨initTurtle, [], []⟩

/-- The `Leaf` record built by the `'L'` / `'l'` cases of `LTurtle::process`. -/
noncomputable def mkLeaf (cfg : Config) (st : TurtleState) : Leaf :=
  ⟨st.position, st.forward, st.left,
   (cfg.leaf_size * st.brushWidth, cfg.leaf_size * st.brushWidth * 2)⟩

/-- The `Branch` record built by the `'B'` case of `LTurtle::process`. -/
noncomputable def mkBranch (cfg : Config) (st : TurtleState) : Branch :=
  ⟨st.position, cfg.radius * st.brushWidth,
   vadd st.position (smul (cfg.distance * st.brushWidth) st.forward),
   cfg.brush_decay_coef * cfg.radius * st.brushWidth⟩

/-- Model of `LTurtle::process`: command dispatch on one symbol. -/
noncomputable def process (cfg : Config) (symbol : Char) (s : LState) : LState :=
  match symbol with
  | 'L' =>
      let s1 : LState := { s with leaves := s.leaves ++ [mkLeaf cfg s.turtle.currentState] }
      { s1 with turtle := move (cfg.distance * s1.turtle.currentState.brushWidth) s1.turtle }
  | 'l' =>
      let s1 : LState := { s with leaves := s.leaves ++ [mkLeaf cfg s.turtle.currentState] }
      { s1 with turtle := move (cfg.distance * s1.turtle.currentState.brushWidth) s1.turtle }
  | 'B' =>
      let s1 : LState := { s with branches := s.branches ++ [mkBranch cfg s.turtle.currentState] }
      { s1 with turtle := move (cfg.distance * s1.turtle.currentState.brushWidth) s1.turtle }
  | 'M' =>
      { s with turtle := move (cfg.distance * s.turtle.currentState.brushWidth) s.turtle }
  | '+' => { s with turtle := rotate ⟨0, 1, 0⟩ cfg.angle_world_y s.turtle }
  | '-' => { s with turtle := rotate ⟨0, 1, 0⟩ (-cfg.angle_world_y) s.turtle }
  | '&' =>
      { s with turtle := rotate (normalize s.turtle.currentState.left) cfg.angle_turtle_left s.turtle }
  | '^' =>
      { s with turtle := rotate (normalize s.turtle.currentState.left) (-cfg.angle_turtle_left) s.turtle }
  | '*' =>
      { s with turtle := set_brush_width (cfg.brush_decay_coef * s.turtle.currentState.brushWidth) s.turtle }
  | '[' => { s with turtle := push s.turtle }
  | ']' => { s with turtle := pop s.turtle }
  | _ => s

/-- Processing a whole sentence symbol by symbol (the direct-interpretation
loop of `LTurtle::run` in the `depth >= max_depth` branch). -/
noncomputable def processList (cfg : Config) (sentence : List Char) (s : LState) : LState :=
  sentence.foldl (fun acc c => process cfg c acc) s

/-- Model of `LTurtle::run`: while `depth < max_depth`, expand symbols that have a
rule by recursing at `depth + 1` and process the rest immediately; at the
depth ceiling process every symbol directly. -/
noncomputable def run (cfg : Config) (rules : Rules) :
    Nat → List Char → LState → LState
  | depth, sentence, s =>
    if h : depth < cfg.max_depth then
      match sentence with
      | [] => s
      | c :: cs =>
        match List.lookup c rules with
        | none => run cfg rules depth cs (process cfg c s)
        | some r => run cfg rules depth cs (run cfg rules (depth + 1) r s)
    else
      sentence.foldl (fun acc c => process cfg c acc) s
termination_by depth sentence => (cfg.max_depth - depth, sentence.length)
decreasing_by
  all_goals simp_wf
  all_goals first
    | exact Prod.Lex.left _ _ (by omega)
    | exact Prod.Lex.right _ (by omega)

/-- The left-to-right depth-first terminal yield of the rewriting tree,
truncated at the depth ceiling: exactly the symbols `run` hands to
`process`, in order. -/
def expand (rules : List (Char × List Char)) (maxDepth : Nat) :
    Nat → List Char → List Char
  | depth, sentence =>
    if h : depth < maxDepth then
      match sentence with
      | [] => []
      | c :: cs =>
        match List.lookup c rules with
        | none => c :: expand rules maxDepth depth cs
        | some r =>
            expand rules maxDepth (depth + 1) r ++ expand rules maxDepth depth cs
    else
      sentence
termination_by depth sentence => (maxDepth - depth, sentence.length)
decreasing_by
  all_goals simp_wf
  all_goals first
    | exact Prod.Lex.left _ _ (by omega)
    | exact Prod.Lex.right _ (by omega)

/-- Fuel-instrumented variant of `run`: structurally recursive on an
explicit call-depth budget `fuel`; when the budget is exhausted it falls
back to direct interpretation. Used to state that the recursion depth of
`run` is bounded by `max_depth`. -/
noncomputable def runFuel (cfg : Config) (rules : Rules) :
    Nat → Nat → List Char → LState → LState
  | 0, _, sentence, s => sentence.foldl (fun acc c => process cfg c acc) s
  | fuel + 1, depth, sentence, s =>
    if depth < cfg.max_depth then
      match sentence with
      | [] => s
      | c :: cs =>
        match List.lookup c rules with
        | none => runFuel cfg rules (fuel + 1) depth cs (process cfg c s)
        | some r =>
            runFuel cfg rules (fuel + 1) depth cs (runFuel cfg rules fuel (depth + 1) r s)
    else sentence.foldl (fun acc c => process cfg c acc) s
termination_by fuel depth sentence s => (fuel, sentence.length)
decreasing_by
  all_goals simp_wf
  all_goals first
    | exact Prod.Lex.left _ _ (by omega)
    | exact Prod.Lex.right _ (by omega)

/-- Command sequences whose `'['` / `']'` brackets are properly nested and
matched; all other symbols are unconstrained. -/
inductive Balanced : List Char → Prop
  | nil : Balanced []
  | plain (c : Char) (l : List Char) (hc : c ≠ '[' ∧ c ≠ ']') (h : Balanced l) :
      Balanced (c :: l)
  | wrap (l : List Char) (h : Balanced l) : Balanced ('[' :: (l ++ [']']))
  | append (l₁ l₂ : List Char) (h₁ : Balanced l₁) (h₂ : Balanced l₂) :
      Balanced (l₁ ++ l₂)

/-- The brush width of the current state and of every stacked snapshot is
positive. -/
def TurtleInv (t : Turtle) : Prop :=
  0 < t.currentState.brushWidth ∧ ∀ f ∈ t.turtleStack, 0 < f.brushWidth

/-- Positivity of the brush width throughout an `LTurtle` state. -/
def BrushInv (s : LState) : Prop := TurtleInv s.turtle

/-- The orientation frame is orthonormal and right-handed with
`up = forward × left`. -/
def Ortho (st : TurtleState) : Prop :=
  dot st.forward st.forward = 1 ∧ dot st.left st.left = 1 ∧ dot st.up st.up = 1
    ∧ dot st.forward st.left = 0 ∧ dot st.forward st.up = 0 ∧ dot st.left st.up = 0
    ∧ st.up = cross st.forward st.left

/-- Folding a list of `(axis, angle)` rotations over a turtle. -/
noncomputable def applyRotations (rots : List (Vec3 × ℝ)) (t : Turtle) : Turtle :=
  rots.foldl (fun acc p => rotate p.1 p.2 acc) t

/-- The configuration of the branch-drawing scenario: distance 1,
radius 0.5, decay 0.9, a 90° world-up angle, leaf size 1, depth ceiling 0. -/
noncomputable def cfgBranch : Config :=
  { radius := 0.5, distance := 1, leaf_size := 1, angle_world_y := Real.pi / 2
    angle_turtle_left := 0, brush_decay_coef := 0.9, max_depth := 0 }

/-- The configuration of the leaf-sizing scenario: leaf size 2,
decay coefficient 0.5. -/
noncomputable def cfgLeaf : Config :=
  { radius := 1, distance := 1, leaf_size := 2, angle_world_y := 0
    angle_turtle_left := 0, brush_decay_coef := 0.5, max_depth := 0 }

/-- A simple configuration used to instantiate universally quantified
statements at concrete inputs. -/
noncomputable def cfgW : Config :=
  { radius := 1, distance := 1, leaf_size := 1, angle_world_y := 0
    angle_turtle_left := 0, brush_decay_coef := 1, max_depth := 0 }

/-! ## Basic lemmas about the interpreter -/

lemma processList_nil (cfg : Config) (s : LState) : processList cfg [] s = s := rfl

lemma processList_cons (cfg : Config) (c : Char) (l : List Char) (s : LState) :
    processList cfg (c :: l) s = processList cfg l (process cfg c s) := rfl

lemma processList_append (cfg : Config) (l₁ l₂ : List Char) (s : LState) :
    processList cfg (l₁ ++ l₂) s = processList cfg l₂ (processList cfg l₁ s) :=
  List.foldl_append _ _ _ _

/-- The function `run` interprets exactly the symbols of the truncated depth-first
terminal yield, in order. -/
lemma run_eq_processList_expand (cfg : Config) (rules : Rules)
    (depth : Nat) (sentence : List Char) (s : LState) :
    run cfg rules depth sentence s
      = processList cfg (expand rules cfg.max_depth depth sentence) s := by
  induction depth, sentence, s using run.induct cfg rules with
  | case1 depth s h =>
      rw [run.eq_def, expand.eq_def]
      simp [h, processList_nil]
  | case2 depth s h c cs hl ih =>
      rw [run.eq_def, expand.eq_def]
      simp only [dif_pos h, hl]
      rw [ih, processList_cons]
  | case3 depth s h c cs r hl ih1 ih2 =>
      rw [run.eq_def, expand.eq_def]
      simp only [dif_pos h, hl]
      rw [ih2, ih1, processList_append]
  | case4 depth sentence s h =>
      rw [run.eq_def, expand.eq_def]
      simp [h]
      rfl

/-- With an empty rule table every symbol is terminal: the yield is the
sentence itself. -/
lemma expand_empty_rules (maxDepth depth : Nat) (sentence : List Char) :
    expand [] maxDepth depth sentence = sentence := by
  induction depth, sentence using expand.induct [] maxDepth with
  | case1 depth h => rw [expand.eq_def]; simp [h]
  | case2 depth h c cs hl ih => rw [expand.eq_def]; simp [h, ih]
  | case3 depth h c cs r hl ih1 ih2 => simp [List.lookup] at hl
  | case4 depth sentence h => rw [expand.eq_def]; simp [h]

/-- With an empty rule table `run` is direct interpretation. -/
lemma run_empty_rules (cfg : Config) (depth : Nat) (sentence : List Char) (s : LState) :
    run cfg [] depth sentence s = processList cfg sentence s := by
  rw [run_eq_processList_expand, expand_empty_rules]

/-- Symbols outside the command table are discarded by `process`. -/
lemma process_default (cfg : Config) (c : Char) (s : LState)
    (h : c ∉ (['L', 'l', 'B', 'M', '+', '-', '&', '^', '*', '[', ']'] : List Char)) :
    process cfg c s = s := by
  simp only [List.mem_cons, List.mem_singleton, not_or] at h
  unfold process
  split
  · exact absurd rfl h.1
  · exact absurd rfl h.2.1
  · exact absurd rfl h.2.2.1
  · exact absurd rfl h.2.2.2.1
  · exact absurd rfl h.2.2.2.2.1
  · exact absurd rfl h.2.2.2.2.2.1
  · exact absurd rfl h.2.2.2.2.2.2.1
  · exact absurd rfl h.2.2.2.2.2.2.2.1
  · exact absurd rfl h.2.2.2.2.2.2.2.2.1
  · exact absurd rfl h.2.2.2.2.2.2.2.2.2.1
  · exact absurd rfl h.2.2.2.2.2.2.2.2.2.2.1
  · rfl

/-! ## Claim theorems -/

/-- C1: `run(sentence, 0)` interprets exactly the left-to-right depth-first
terminal yield of the rewriting tree truncated at the depth ceiling
(`expand`): while `depth < max_depth` a symbol with a rule triggers
recursion at `depth + 1` and a symbol without a rule is processed
immediately; at the ceiling every symbol is processed directly. For the
rule `A -> AA` with `max_depth = 3`, `run` on `"A"` processes exactly
8 terminal `'A'` symbols. -/
theorem run_is_truncated_depth_first_yield (cfg : Config) (rules : Rules)
    (depth : Nat) (sentence : List Char) (s : LState) :
    run cfg rules depth sentence s
        = processList cfg (expand rules cfg.max_depth depth sentence) s
      ∧ expand [('A', ['A', 'A'])] 3 0 ['A'] = List.replicate 8 'A'
      ∧ run { cfg with max_depth := 3 } [('A', ['A', 'A'])] 0 ['A'] s
          = processList { cfg with max_depth := 3 } (List.replicate 8 'A') s := by
  refine ⟨run_eq_processList_expand cfg rules depth sentence s, ?_, ?_⟩
  · simp [expand, List.lookup]
  · rw [run_eq_processList_expand]
    congr 1
    simp [expand, List.lookup]

/-- C7: `pop()` with an empty state stack is a total no-op: the agent's
entire state and the stack are left unchanged. -/
theorem pop_empty_stack_noop (t : Turtle) (h : t.turtleStack = []) : pop t = t := by
  unfold pop
  rw [h]

/-- Witness for C7 at the freshly constructed turtle. -/
theorem pop_empty_stack_noop_witness :
    initTurtle.turtleStack = [] ∧ pop initTurtle = initTurtle :=
  ⟨rfl, pop_empty_stack_noop initTurtle rfl⟩

/-- C9: unknown symbols are silently discarded with no side effect, and
running axiom `"QBQ"` with no rule for `'Q'` emits exactly one Branch and
ends in a state identical to running axiom `"B"` alone. -/
theorem unknown_symbols_discarded (cfg : Config) (c : Char) (s : LState)
    (h : c ∉ (['L', 'l', 'B', 'M', '+', '-', '&', '^', '*', '[', ']'] : List Char)) :
    process cfg c s = s
      ∧ run cfg [] 0 ['Q', 'B', 'Q'] initLState = run cfg [] 0 ['B'] initLState
      ∧ (run cfg [] 0 ['Q', 'B', 'Q'] initLState).branches.length = 1 := by
  have hQ : ∀ s' : LState, process cfg 'Q' s' = s' := fun s' =>
    process_default cfg 'Q' s' (by decide)
  have hrun : run cfg [] 0 ['Q', 'B', 'Q'] initLState = run cfg [] 0 ['B'] initLState := by
    rw [run_empty_rules, run_empty_rules]
    simp only [processList_cons, processList_nil, hQ]
  refine ⟨process_default cfg c s h, hrun, ?_⟩
  rw [hrun, run_empty_rules]
  simp only [processList_cons, processList_nil]
  simp [process, initLState]

/-- Witness for C9 at the unknown symbol `'Q'`. -/
theorem unknown_symbols_discarded_witness :
    'Q' ∉ (['L', 'l', 'B', 'M', '+', '-', '&', '^', '*', '[', ']'] : List Char)
      ∧ process cfgW 'Q' initLState = initLState :=
  ⟨by decide, (unknown_symbols_discarded cfgW 'Q' initLState (by decide)).1⟩

/-- The fuel-instrumented interpreter agrees with `run` as soon as the
fuel covers the remaining depth budget `max_depth - depth`. -/
lemma runFuel_eq_run (cfg : Config) (rules : Rules)
    (fuel depth : Nat) (sentence : List Char) (s : LState)
    (hfuel : cfg.max_depth ≤ depth + fuel) :
    runFuel cfg rules fuel depth sentence s = run cfg rules depth sentence s := by
  induction fuel, depth, sentence, s using runFuel.induct cfg rules with
  | case1 depth sentence s =>
      have h : ¬ depth < cfg.max_depth := by omega
      rw [runFuel.eq_def, run.eq_def]
      simp [h]
  | case2 fuel depth s h =>
      rw [runFuel.eq_def, run.eq_def]
      simp [h]
  | case3 fuel depth s h c cs hl ih =>
      rw [runFuel.eq_def, run.eq_def]
      simp only [dif_pos h, if_pos h, hl]
      exact ih (by omega)
  | case4 fuel depth s h c cs r hl ih1 ih2 =>
      rw [runFuel.eq_def, run.eq_def]
      simp only [dif_pos h, if_pos h, hl]
      rw [ih2 (by omega), ih1 (by omega)]
  | case5 fuel depth sentence s h =>
      rw [runFuel.eq_def, run.eq_def]
      simp [h]

/-- C5: `run` terminates on every finite sentence, every rule table
(cyclic ones such as `A -> AA` included), every config and starting depth:
the recursion depth of nested `run` calls is bounded by `max_depth` — a
call budget (`fuel`) covering `max_depth - depth` already computes `run`
exactly, so the depth limit alone guarantees termination. -/
theorem run_terminates_depth_bounded (cfg : Config) (rules : Rules)
    (fuel depth : Nat) (sentence : List Char) (s : LState)
    (hfuel : cfg.max_depth ≤ depth + fuel) :
    runFuel cfg rules fuel depth sentence s = run cfg rules depth sentence s :=
  runFuel_eq_run cfg rules fuel depth sentence s hfuel

/-- Witness for C5 on the cyclic rule table `A -> AA` with depth ceiling 3. -/
theorem run_terminates_depth_bounded_witness :
    ({ cfgW with max_depth := 3 } : Config).max_depth ≤ 0 + 3
      ∧ runFuel { cfgW with max_depth := 3 } [('A', ['A', 'A'])] 3 0 ['A'] initLState
          = run { cfgW with max_depth := 3 } [('A', ['A', 'A'])] 0 ['A'] initLState :=
  ⟨by simp, run_terminates_depth_bounded { cfgW with max_depth := 3 }
    [('A', ['A', 'A'])] 3 0 ['A'] initLState (by simp)⟩

/-! ## Brush-width positivity -/

lemma turtleInv_move (d : ℝ) (t : Turtle) (h : TurtleInv t) : TurtleInv (move d t) := by
  simpa [TurtleInv, move] using h

lemma turtleInv_rotate (a : Vec3) (ang : ℝ) (t : Turtle) (h : TurtleInv t) :
    TurtleInv (rotate a ang t) := by
  simpa [TurtleInv, rotate] using h

lemma turtleInv_set_brush_width (w : ℝ) (t : Turtle) (h : TurtleInv t) :
    TurtleInv (set_brush_width w t) := by
  unfold set_brush_width
  split
  · exact ⟨by assumption, h.2⟩
  · exact h

lemma turtleInv_push (t : Turtle) (h : TurtleInv t) : TurtleInv (push t) := by
  refine ⟨h.1, ?_⟩
  intro f hf
  rcases List.mem_cons.mp hf with rfl | hf
  · exact h.1
  · exact h.2 f hf

lemma turtleInv_pop (t : Turtle) (h : TurtleInv t) : TurtleInv (pop t) := by
  unfold pop
  split
  · exact h
  · next lastState rest heq =>
      refine ⟨h.2 lastState (by rw [heq]; exact List.mem_cons_self _ _), ?_⟩
      intro f hf
      exact h.2 f (by rw [heq]; exact List.mem_cons_of_mem _ hf)

lemma brushInv_process (cfg : Config) (c : Char) (s : LState) (h : BrushInv s) :
    BrushInv (process cfg c s) := by
  unfold BrushInv at *
  unfold process
  split
  · exact turtleInv_move _ _ h
  · exact turtleInv_move _ _ h
  · exact turtleInv_move _ _ h
  · exact turtleInv_move _ _ h
  · exact turtleInv_rotate _ _ _ h
  · exact turtleInv_rotate _ _ _ h
  · exact turtleInv_rotate _ _ _ h
  · exact turtleInv_rotate _ _ _ h
  · exact turtleInv_set_brush_width _ _ h
  · exact turtleInv_push _ h
  · exact turtleInv_pop _ h
  · exact h

lemma brushInv_processList (cfg : Config) (l : List Char) (s : LState) (h : BrushInv s) :
    BrushInv (processList cfg l s) := by
  induction l generalizing s with
  | nil => exact h
  | cons c cs ih => exact ih _ (brushInv_process cfg c s h)

lemma brushInv_run (cfg : Config) (rules : Rules) (depth : Nat)
    (sentence : List Char) (s : LState) (h : BrushInv s) :
    BrushInv (run cfg rules depth sentence s) := by
  rw [run_eq_processList_expand]
  exact brushInv_processList _ _ _ h

lemma brushInv_init : BrushInv initLState :=
  ⟨by norm_num [initLState, initTurtle, initState], by simp [initLState, initTurtle]⟩

/-- C6: `set_brush_width` assigns the width iff it is positive and is a
no-op otherwise; consequently, starting from the initial brush width 1.0,
which is positive, every interpreted command (`'*'` with an arbitrary
decay coefficient included, and `pop` restoring stacked snapshots) keeps
the brush width positive throughout `run`. -/
theorem set_brush_width_guard_keeps_positive (cfg : Config) (rules : Rules)
    (w : ℝ) (t : Turtle) (depth : Nat) (sentence : List Char) (s : LState)
    (hs : BrushInv s) :
    (0 < w → set_brush_width w t
        = { t with currentState := { t.currentState with brushWidth := w } })
      ∧ (¬ 0 < w → set_brush_width w t = t)
      ∧ BrushInv initLState
      ∧ BrushInv (run cfg rules depth sentence s) := by
  refine ⟨fun hw => ?_, fun hw => ?_, brushInv_init, brushInv_run _ _ _ _ _ hs⟩
  · unfold set_brush_width
    rw [if_pos hw]
  · unfold set_brush_width
    rw [if_neg hw]

/-- Witness for C6: the fresh state satisfies the invariant, and a
positive width `2` is assigned. -/
theorem set_brush_width_guard_keeps_positive_witness :
    BrushInv initLState
      ∧ (set_brush_width 2 initTurtle).currentState.brushWidth = 2 := by
  have h := set_brush_width_guard_keeps_positive cfgW [] 2 initTurtle 0 [] initLState
    brushInv_init
  exact ⟨brushInv_init, by rw [h.1 (by norm_num)]⟩


lemma process_stack_eq (cfg : Config) (c : Char) (s : LState)
    (h1 : c ≠ '[') (h2 : c ≠ ']') :
    (process cfg c s).turtle.turtleStack = s.turtle.turtleStack := by
  unfold process
  split
  · rfl
  · rfl
  · rfl
  · rfl
  · rfl
  · rfl
  · rfl
  · rfl
  · show (set_brush_width _ _).turtleStack = _
    unfold set_brush_width
    split <;> rfl
  · exact absurd rfl h1
  · exact absurd rfl h2
  · rfl

/-- The turtle produced by `process` depends only on the incoming turtle,
not on the output collections. -/
lemma process_turtle_congr (cfg : Config) (c : Char) (s₁ s₂ : LState)
    (h : s₁.turtle = s₂.turtle) :
    (process cfg c s₁).turtle = (process cfg c s₂).turtle := by
  obtain ⟨t₁, br₁, lv₁⟩ := s₁
  obtain ⟨t₂, br₂, lv₂⟩ := s₂
  cases h
  unfold process
  split <;> rfl

lemma processList_turtle_congr (cfg : Config) (l : List Char) (s₁ s₂ : LState)
    (h : s₁.turtle = s₂.turtle) :
    (processList cfg l s₁).turtle = (processList cfg l s₂).turtle := by
  induction l generalizing s₁ s₂ with
  | nil => exact h
  | cons c cs ih => exact ih _ _ (process_turtle_congr cfg c s₁ s₂ h)

lemma pop_of_stack (t : Turtle) (a : TurtleState) (rest : List TurtleState)
    (h : t.turtleStack = a :: rest) : pop t = ⟨a, rest⟩ := by
  cases t with
  | mk cur st =>
      cases h
      rfl

/-- A balanced command block leaves the state stack unchanged. -/
lemma processList_stack_balanced (cfg : Config) {l : List Char} (hb : Balanced l) :
    ∀ s : LState, (processList cfg l s).turtle.turtleStack = s.turtle.turtleStack := by
  induction hb with
  | nil => intro s; rfl
  | plain c l hc h ih =>
      intro s
      rw [processList_cons, ih]
      exact process_stack_eq cfg c s hc.1 hc.2
  | wrap l h ih =>
      intro s
      rw [processList_cons, processList_append, processList_cons, processList_nil]
      have hst : (processList cfg l (process cfg '[' s)).turtle.turtleStack
          = s.turtle.currentState :: s.turtle.turtleStack := by
        rw [ih]
        rfl
      have hpop : process cfg ']' (processList cfg l (process cfg '[' s))
          = { processList cfg l (process cfg '[' s) with
                turtle := pop (processList cfg l (process cfg '[' s)).turtle } := by
        simp [process]
      rw [hpop, pop_of_stack _ _ _ hst]
  | append l₁ l₂ h₁ h₂ ih₁ ih₂ =>
      intro s
      rw [processList_append, ih₂, ih₁]

/-- Executing `'['`, a balanced block, `']'` restores the full turtle. -/
lemma bracket_block_turtle (cfg : Config) {l : List Char} (hb : Balanced l)
    (s : LState) :
    (processList cfg ('[' :: (l ++ [']'])) s).turtle = s.turtle := by
  rw [processList_cons, processList_append, processList_cons, processList_nil]
  have hst : (processList cfg l (process cfg '[' s)).turtle.turtleStack
      = s.turtle.currentState :: s.turtle.turtleStack := by
    rw [processList_stack_balanced cfg hb]
    rfl
  have hpop : process cfg ']' (processList cfg l (process cfg '[' s))
      = { processList cfg l (process cfg '[' s) with
            turtle := pop (processList cfg l (process cfg '[' s)).turtle } := by
    simp [process]
  rw [hpop, pop_of_stack _ _ _ hst]

/-- C4: a `push` followed, after any balanced intervening command
sequence, by the matching `pop` restores the agent's full state (position,
forward, left, up, brush width, and the stack); hence replacing a
bracketed `'['...']'` subsequence by a no-op leaves the agent's final
state identical. -/
theorem push_pop_roundtrip (cfg : Config) (l pre post : List Char) (s : LState)
    (hb : Balanced l) :
    (processList cfg (pre ++ ('[' :: (l ++ [']'])) ++ post) s).turtle
      = (processList cfg (pre ++ post) s).turtle := by
  rw [processList_append, processList_append, processList_append]
  exact processList_turtle_congr cfg post _ _ (bracket_block_turtle cfg hb _)

/-- Witness for C4: dropping the bracketed block `[M]` from `B[M]+` leaves
the final turtle of `B+`. -/
theorem push_pop_roundtrip_witness :
    Balanced ['M']
      ∧ (processList cfgW (['B'] ++ ('[' :: (['M'] ++ [']'])) ++ ['+']) initLState).turtle
          = (processList cfgW (['B'] ++ ['+']) initLState).turtle := by
  have hb : Balanced ['M'] := Balanced.plain 'M' [] (by decide) Balanced.nil
  exact ⟨hb, push_pop_roundtrip cfgW ['M'] ['B'] ['+'] initLState hb⟩

/-! ## Branch and leaf emission -/

lemma normalize_of_unit (v : Vec3) (h : dot v v = 1) : normalize v = v := by
  unfold normalize
  rw [h, Real.sqrt_one, inv_one]
  ext <;> simp [smul]

lemma process_B (cfg : Config) (s : LState) :
    process cfg 'B' s
      = { turtle := move (cfg.distance * s.turtle.currentState.brushWidth) s.turtle
          branches := s.branches ++ [mkBranch cfg s.turtle.currentState]
          leaves := s.leaves } := rfl

/-- The state after processing `'*'` in the leaf-sizing scenario: brush
width decays from `1` to `0.5 * 1`. -/
lemma state_after_star :
    process cfgLeaf '*' initLState
      = ⟨⟨{ initState with brushWidth := 0.5 * 1 }, []⟩, [], []⟩ := by
  simp only [process, initLState, initTurtle]
  unfold set_brush_width
  rw [if_pos (by norm_num [cfgLeaf, initState])]
  norm_num [cfgLeaf, initState]

/-- C10: `process('B')` in a state with unit-length forward appends the
Branch from the current position to `position + distance*brushWidth*forward`,
and that end point equals the agent's position right after the command:
consecutive `'B'` commands chain end-to-start. -/
theorem branch_end_meets_next_position (cfg : Config) (s : LState)
    (h : dot s.turtle.currentState.forward s.turtle.currentState.forward = 1) :
    (process cfg 'B' s).branches = s.branches ++ [mkBranch cfg s.turtle.currentState]
      ∧ (mkBranch cfg s.turtle.currentState).endPoint
          = (process cfg 'B' s).turtle.currentState.position := by
  constructor
  · rfl
  · simp [process, move, mkBranch, normalize_of_unit _ h]

/-- Witness for C10 at the initial state, whose forward vector is unit. -/
theorem branch_end_meets_next_position_witness :
    dot initLState.turtle.currentState.forward initLState.turtle.currentState.forward = 1
      ∧ (mkBranch cfgW initLState.turtle.currentState).endPoint
          = (process cfgW 'B' initLState).turtle.currentState.position := by
  have h : dot initLState.turtle.currentState.forward
      initLState.turtle.currentState.forward = 1 := by
    norm_num [dot, initLState, initTurtle, initState]
  exact ⟨h, (branch_end_meets_next_position cfgW initLState h).2⟩

/-- C8: `'L'` appends exactly one Leaf anchored at the current position
with orientation `(forward, left)` and size
`(leafSize * brushWidth, leafSize * brushWidth * 2)`, then moves by
`distance * brushWidth`; concretely, axiom `"*L"` with decay `0.5` and
leaf size `2` yields brush width `0.5` after `'*'` and one Leaf of size
`(1, 2)`. -/
theorem leaf_sizing (cfg : Config) (s : LState) :
    ((process cfg 'L' s).leaves = s.leaves ++ [mkLeaf cfg s.turtle.currentState]
        ∧ (mkLeaf cfg s.turtle.currentState).size
            = (cfg.leaf_size * s.turtle.currentState.brushWidth,
               cfg.leaf_size * s.turtle.currentState.brushWidth * 2)
        ∧ (process cfg 'L' s).turtle
            = move (cfg.distance * s.turtle.currentState.brushWidth) s.turtle)
      ∧ (process cfgLeaf '*' initLState).turtle.currentState.brushWidth = 0.5
      ∧ (run cfgLeaf [] 0 ['*', 'L'] initLState).leaves
          = [⟨⟨0, 0, 0⟩, ⟨0, 1, 0⟩, ⟨0, 0, 1⟩, (1, 2)⟩] := by
  refine ⟨⟨rfl, rfl, rfl⟩, ?_, ?_⟩
  · rw [state_after_star]
    norm_num
  · rw [run_empty_rules, processList_cons, processList_cons, processList_nil,
      state_after_star]
    simp [process, mkLeaf, initState]
    norm_num [cfgLeaf]

/-! ## Orthonormality of the orientation frame -/

lemma dot_comm (a b : Vec3) : dot a b = dot b a := by
  simp [dot]; ring

lemma dot_cross_self_left (a b : Vec3) : dot a (cross a b) = 0 := by
  simp [dot, cross]; ring

lemma dot_cross_self_right (a b : Vec3) : dot b (cross a b) = 0 := by
  simp [dot, cross]; ring

lemma dot_cross_lagrange (a b : Vec3) :
    dot (cross a b) (cross a b) = dot a a * dot b b - (dot a b) ^ 2 := by
  simp [dot, cross]; ring

lemma cross_cross_of (f u : Vec3) (h1 : dot f f = 1) (h2 : dot f u = 0) :
    cross f (cross u f) = u := by
  have key : cross f (cross u f)
      = ⟨dot f f * u.x - dot f u * f.x, dot f f * u.y - dot f u * f.y,
         dot f f * u.z - dot f u * f.z⟩ := by
    ext <;> simp [cross, dot] <;> ring
  rw [key, h1, h2]
  ext <;> simp

/-- The glm quaternion rotation matrix of a unit quaternion preserves dot
products. -/
lemma quatRotate_dot (qw qx qy qz : ℝ) (v u : Vec3)
    (hN : qw ^ 2 + qx ^ 2 + qy ^ 2 + qz ^ 2 = 1) :
    dot (quatRotate qw qx qy qz v) (quatRotate qw qx qy qz u) = dot v u := by
  simp only [quatRotate, dot]
  linear_combination (4 * ((qx ^ 2 + qy ^ 2 + qz ^ 2)
      * (v.x * u.x + v.y * u.y + v.z * u.z)
    - (qx * v.x + qy * v.y + qz * v.z) * (qx * u.x + qy * u.y + qz * u.z))) * hN

/-- Rotation about a unit axis preserves dot products. -/
lemma rotVec_dot (a : Vec3) (θ : ℝ) (v u : Vec3) (ha : dot a a = 1) :
    dot (rotVec a θ v) (rotVec a θ u) = dot v u := by
  unfold rotVec
  apply quatRotate_dot
  unfold dot at ha
  linear_combination (Real.sin (θ / 2)) ^ 2 * ha + Real.sin_sq_add_cos_sq (θ / 2)

lemma ortho_init : Ortho initState := by
  refine ⟨?_, ?_, ?_, ?_, ?_, ?_, ?_⟩
  · norm_num [dot, initState]
  · norm_num [dot, initState]
  · norm_num [dot, initState]
  · norm_num [dot, initState]
  · norm_num [dot, initState]
  · norm_num [dot, initState]
  · ext <;> norm_num [cross, initState]

/-- One `rotate` call about a unit axis preserves orthonormality and
re-establishes `up = forward × left`. -/
lemma rotate_ortho (a : Vec3) (θ : ℝ) (t : Turtle) (ha : dot a a = 1)
    (h : Ortho t.currentState) : Ortho (rotate a θ t).currentState := by
  obtain ⟨hf, hl, hu, hfl, hfu, hlu, hcross⟩ := h
  have h1 : dot (rotVec a θ t.currentState.forward) (rotVec a θ t.currentState.forward) = 1 := by
    rw [rotVec_dot a θ _ _ ha, hf]
  have h2 : dot (rotVec a θ t.currentState.left) (rotVec a θ t.currentState.left) = 1 := by
    rw [rotVec_dot a θ _ _ ha, hl]
  have h3 : dot (rotVec a θ t.currentState.forward) (rotVec a θ t.currentState.left) = 0 := by
    rw [rotVec_dot a θ _ _ ha, hfl]
  set nf := rotVec a θ t.currentState.forward with hnf
  set nl := rotVec a θ t.currentState.left with hnl
  have h4 : dot (cross nf nl) (cross nf nl) = 1 := by
    rw [dot_cross_lagrange, h1, h2, h3]; ring
  have h5 : dot nf (cross nf nl) = 0 := dot_cross_self_left nf nl
  have h6 : dot nl (cross nf nl) = 0 := dot_cross_self_right nf nl
  have h7 : dot (cross (cross nf nl) nf) (cross (cross nf nl) nf) = 1 := by
    rw [dot_cross_lagrange, h4, h1, dot_comm (cross nf nl) nf, h5]; ring
  have h8 : dot nf (cross (cross nf nl) nf) = 0 := dot_cross_self_right (cross nf nl) nf
  have h9 : dot (cross (cross nf nl) nf) (cross nf nl) = 0 := by
    rw [dot_comm]; exact dot_cross_self_left (cross nf nl) nf
  have hup : cross nf nl = cross nf (cross (cross nf nl) nf) :=
    (cross_cross_of nf (cross nf nl) h1 h5).symm
  show Ortho _
  unfold Ortho rotate
  simp only [← hnf, ← hnl]
  rw [normalize_of_unit _ h1, normalize_of_unit _ h7, normalize_of_unit _ h4]
  exact ⟨h1, h7, h4, h8, h5, h9, hup⟩

lemma applyRotations_ortho (rots : List (Vec3 × ℝ)) (t : Turtle)
    (h : ∀ p ∈ rots, dot p.1 p.1 = 1) (ht : Ortho t.currentState) :
    Ortho ((applyRotations rots t).currentState) := by
  induction rots generalizing t with
  | nil => exact ht
  | cons p ps ih =>
      exact ih _ (fun q hq => h q (List.mem_cons_of_mem _ hq))
        (rotate_ortho p.1 p.2 t (h p (List.mem_cons_self _ _)) ht)

/-- C3: after every sequence of `rotate` calls with unit-length axes
starting from the initial frame, `forward`, `left` and `up` remain
mutually orthogonal unit vectors with `up` re-derived as
`forward × left` after every rotation (the exact-arithmetic form of the
spec's floating-point tolerance statement). -/
theorem rotations_keep_frame_orthonormal (rots : List (Vec3 × ℝ))
    (h : ∀ p ∈ rots, dot p.1 p.1 = 1) :
    Ortho ((applyRotations rots initTurtle).currentState) :=
  applyRotations_ortho rots initTurtle h ortho_init

/-- Witness for C3 on a single unit-axis rotation. -/
theorem rotations_keep_frame_orthonormal_witness :
    (∀ p ∈ ([(⟨0, 1, 0⟩, 1)] : List (Vec3 × ℝ)), dot p.1 p.1 = 1)
      ∧ Ortho ((applyRotations [(⟨0, 1, 0⟩, 1)] initTurtle).currentState) := by
  have h : ∀ p ∈ ([(⟨0, 1, 0⟩, 1)] : List (Vec3 × ℝ)), dot p.1 p.1 = 1 := by
    intro p hp
    simp only [List.mem_singleton] at hp
    subst hp
    norm_num [dot]
  exact ⟨h, rotations_keep_frame_orthonormal _ h⟩

/-! ## The two-branch scenario -/

lemma norm_e2 : normalize ⟨0, 1, 0⟩ = (⟨0, 1, 0⟩ : Vec3) :=
  normalize_of_unit _ (by norm_num [dot])

/-- State after the first `'B'` of the scenario: position `(0,1,0)`, one
Branch from the origin to `(0,1,0)` with radii `(0.5, 0.45)`. -/
lemma bscn_s1 : process cfgBranch 'B' initLState
    = ⟨⟨{ initState with position := ⟨0, 1, 0⟩ }, []⟩,
       [⟨⟨0, 0, 0⟩, 0.5, ⟨0, 1, 0⟩, 0.45⟩], []⟩ := by
  norm_num [process_B, move, mkBranch, initLState, initTurtle, initState, cfgBranch,
    norm_e2, vadd, smul]

lemma bscn_s2_decomp : processList cfgBranch ['B', '+'] initLState
    = process cfgBranch '+' (process cfgBranch 'B' initLState) := by
  rw [processList_cons, processList_cons, processList_nil]

lemma bscn_s2_pos :
    (processList cfgBranch ['B', '+'] initLState).turtle.currentState.position
      = ⟨0, 1, 0⟩ := by
  rw [bscn_s2_decomp, bscn_s1]
  simp [process, rotate]

lemma bscn_s2_bw :
    (processList cfgBranch ['B', '+'] initLState).turtle.currentState.brushWidth
      = 1 := by
  rw [bscn_s2_decomp, bscn_s1]
  simp [process, rotate, initState]

lemma bscn_s2_br :
    (processList cfgBranch ['B', '+'] initLState).branches
      = [⟨⟨0, 0, 0⟩, 0.5, ⟨0, 1, 0⟩, 0.45⟩] := by
  rw [bscn_s2_decomp, bscn_s1]
  simp [process]

/-- C2: with config `{distance=1, radius=0.5, decayCoef=0.9,
angleWorldY=π/2, leafSize=1, maxDepth=0}`, empty rules and axiom `"B+B"`,
`run` from the initial state appends exactly two Branches: the first from
`(0,0,0)` to `(0,1,0)` with radii `(0.5, 0.45)`; the second, after the 90°
rotation about world-up, from `(0,1,0)` to `(0,1,0) + 1 * forward`, with
`forward` the turtle's forward after that rotation and the same radii
`(radius*brushWidth, decayCoef*radius*brushWidth) = (0.5, 0.45)`. -/
theorem two_branches_scenario :
    (run cfgBranch [] 0 ['B', '+', 'B'] initLState).branches
      = [⟨⟨0, 0, 0⟩, 0.5, ⟨0, 1, 0⟩, 0.45⟩,
         ⟨⟨0, 1, 0⟩, 0.5,
          vadd ⟨0, 1, 0⟩ (smul 1
            ((processList cfgBranch ['B', '+'] initLState).turtle.currentState.forward)),
          0.45⟩] := by
  rw [run_empty_rules,
    show (['B', '+', 'B'] : List Char) = ['B', '+'] ++ ['B'] from rfl,
    processList_append, processList_cons, processList_nil, process_B]
  rw [bscn_s2_br]
  simp only [List.singleton_append, List.cons.injEq, and_true, true_and]
  unfold mkBranch
  rw [bscn_s2_pos, bscn_s2_bw]
  refine Branch.ext rfl ?_ ?_ ?_ <;> norm_num [cfgBranch]

end LSys

